import Mathlib

/-!
Shallow embedding of a pixel-art editor (an immutable picture grid, drawing
tools, an undo-history reducer, and an incremental canvas renderer), together
with proofs about its behaviour.

Conventions of the embedding:
* JavaScript color strings are modelled as `String`.
* JavaScript array reads `a[i]` that can yield `undefined` are modelled as
  `Option` values (`none` = `undefined`).
* Coordinates are `Int` (pointer positions can be negative); picture
  dimensions are `Nat`.
* `Date.now()` is modelled by an explicit `now : Int` parameter; the source
  reads the clock twice in one reducer call, but both reads happen in the
  same handler turn and are modelled as one instant.
-/

namespace PixelArt

abbrev Color := String

/-- An element of the `drawn` arrays the tools build: `{x, y, color}`. -/
structure Edit where
  x : Int
  y : Int
  color : Color
deriving DecidableEq, Repr

/-- `class Picture { width; height; pixels }`: row-major list of colors. -/
structure Picture where
  width : Nat
  height : Nat
  pixels : List Color
deriving DecidableEq, Repr

/-- `Picture.empty`: `new Array(width * height).fill(color)`. -/
def Picture.empty (width height : Nat) (color : Color) : Picture :=
  ⟨width, height, List.replicate (width * height) color⟩

/-- `pixel(x, y) { return this.pixels[x + y * this.width]; }` — the source has
no bounds check: a negative or too-large index reads `undefined` (`none`),
and an out-of-bounds coordinate whose row-major index happens to land inside
the array reads another cell's color. -/
def Picture.pixel (p : Picture) (x y : Int) : Option Color :=
  let idx := x + y * (p.width : Int)
  if 0 ≤ idx then p.pixels[idx.toNat]? else none

/-- `draw(pixels)`: copies the pixel array and assigns
`copy[x + y * this.width] = color` for each edit in order.  An assignment at
a negative index leaves the array's elements unchanged in JavaScript (it sets
a non-index property), modelled by the `if`; an assignment at an index beyond
the array's length would extend the array with holes, which no read below
`width * height` ever observes — modelled by `List.set`, which leaves the
list unchanged there. -/
def Picture.draw (p : Picture) (edits : List Edit) : Picture :=
  ⟨p.width, p.height,
    edits.foldl (fun copy e =>
      let idx := e.x + e.y * (p.width : Int)
      if 0 ≤ idx then copy.set idx.toNat e.color else copy) p.pixels⟩

/-- The data-model invariant of a `Picture`: the backing array has exactly
`width * height` cells. -/
def Picture.WellFormed (p : Picture) : Prop :=
  p.pixels.length = p.width * p.height

instance (p : Picture) : Decidable p.WellFormed := by
  unfold Picture.WellFormed; infer_instance

/-- The color of the last edit in a sequence whose coordinates equal
`(x, y)`, if any. -/
def lastMatch (edits : List Edit) (x y : Int) : Option Color :=
  ((edits.filter (fun e => e.x == x && e.y == y)).getLast?).map Edit.color

/-- The editor state `{tool, color, picture, done, doneAt}`. -/
structure EditorState where
  tool : String
  color : Color
  picture : Picture
  done : List Picture
  doneAt : Int
deriving DecidableEq, Repr

/-- An action: a partial record of fields to merge into the state
(`{tool}`, `{color}`, `{picture}`, `{undo: true}`). -/
structure Action where
  tool : Option String := none
  color : Option Color := none
  picture : Option Picture := none
  undo : Bool := false
deriving DecidableEq, Repr

/-- `Object.assign({}, state, action)`: fields present in the action replace
those of the state; absent fields are preserved.  The actions the program
dispatches never carry `done` or `doneAt` fields. -/
def EditorState.merge (s : EditorState) (a : Action) : EditorState :=
  { tool := a.tool.getD s.tool
    color := a.color.getD s.color
    picture := a.picture.getD s.picture
    done := s.done
    doneAt := s.doneAt }

/-- `historyUpdateState(state, action)` from Step 7; `now` models
`Date.now()`. -/
def historyUpdateState (now : Int) (state : EditorState) (action : Action) :
    EditorState :=
  if action.undo = true then
    if state.done.length = 0 then state
    else { state with
           picture := state.done.headD state.picture
           done := state.done.tail
           doneAt := 0 }
  else if action.picture.isSome ∧ state.doneAt < now - 1000 then
    { state.merge action with
      done := state.picture :: state.done
      doneAt := now }
  else
    state.merge action

/-- The canonical startup state. -/
def startState : EditorState :=
  { tool := "draw"
    color := "#000000"
    picture := Picture.empty 60 30 "#f0f0f0"
    done := []
    doneAt := 0 }

/-- The cells visited by the renderer's double loop, in loop order
(`y` outer, `x` inner). -/
def allCells (width height : Nat) : List (Nat × Nat) :=
  (List.range height).flatMap (fun y => (List.range width).map (fun x => (x, y)))

/-- The incremental `drawPicture(picture, canvas, scale, previous)`: returns
whether the backing canvas was resized (which happens exactly when
`previous` is null or its dimensions differ), and the list of cells whose
squares are filled.  The `fillRect` side effects are abstracted as that
cell list; a cell is filled when `previous == null` (after the dimension
normalization) or its color differs from the new picture's. -/
def drawPictureCells (picture : Picture) (previous : Option Picture) :
    Bool × List (Nat × Nat) :=
  let previous :=
    match previous with
    | none => none
    | some prev =>
        if prev.width = picture.width ∧ prev.height = picture.height
        then some prev else none
  (previous.isNone,
    (allCells picture.width picture.height).filter (fun c =>
      match previous with
      | none => true
      | some prev =>
          decide (¬ prev.pixel (c.1 : Int) (c.2 : Int) =
            picture.pixel (c.1 : Int) (c.2 : Int))))

/-- The `draw` tool's `drawPixel`: the single edit it dispatches for one
pointer position.  The source applies no clipping. -/
def drawEdits (pos : Int × Int) (state : EditorState) : List Edit :=
  [⟨pos.1, pos.2, state.color⟩]

/-- The inclusive integer range `[a..b]` (empty when `b < a`), as traversed
by the `for (let v = a; v <= b; v++)` loops of the rectangle and circle
tools. -/
def intRange (a b : Int) : List Int :=
  (List.range (b + 1 - a).toNat).map (fun i : Nat => a + (i : Int))

/-- The `rectangle` tool's `drawRectangle`: all cells of the axis-aligned
rectangle spanned by the drag's start and the current position, inclusive
bounds, `y` outer loop — with no clipping to the grid. -/
def rectangleEdits (start pos : Int × Int) (state : EditorState) :
    List Edit :=
  let xStart := min start.1 pos.1
  let yStart := min start.2 pos.2
  let xEnd := max start.1 pos.1
  let yEnd := max start.2 pos.2
  (intRange yStart yEnd).flatMap (fun y =>
    (intRange xStart xEnd).map (fun x => ⟨x, y, state.color⟩))

/-- `Math.ceil(Math.sqrt n)` on a natural number, computed exactly.  The
source computes it on IEEE doubles; for the integers involved (small
coordinate differences, exactly representable squares) the double result is
exact, so the exact value is the faithful embedding. -/
def ceilSqrt (n : Nat) : Nat :=
  if Nat.sqrt n * Nat.sqrt n = n then Nat.sqrt n else Nat.sqrt n + 1

/-- The `circle` tool's `drawCircle`: every cell whose center lies within
Euclidean distance `radius` (= distance from `pos` to `to`) of the start,
clipped to the grid.  The source's test `Math.sqrt(dx²+dy²) > radius` with
`radius = Math.sqrt(rx²+ry²)` is equivalent to `dx²+dy² > rx²+ry²` because
IEEE square root is exact-monotone on these exactly-representable integer
squares; the embedding uses the integer comparison. -/
def circleEdits (pos cur : Int × Int) (state : EditorState) : List Edit :=
  let distSq := (cur.1 - pos.1) * (cur.1 - pos.1) +
    (cur.2 - pos.2) * (cur.2 - pos.2)
  let radiusC : Int := (ceilSqrt distSq.toNat : Nat)
  (intRange (-radiusC) radiusC).flatMap (fun dy =>
    (intRange (-radiusC) radiusC).filterMap (fun dx =>
      if dx * dx + dy * dy > distSq then none
      else
        let y := pos.2 + dy
        let x := pos.1 + dx
        if y < 0 ∨ (state.picture.height : Int) ≤ y ∨
           x < 0 ∨ (state.picture.width : Int) ≤ x then none
        else some ⟨x, y, state.color⟩))

/-- The `pick` tool: dispatches a color-change action sampling the picture
at the pointer.  The source has no bounds check here; an out-of-grid sample
yields `undefined` (`none`), in which case this model dispatches an action
without a color field (the source would dispatch `{color: undefined}`; no
claim depends on that corner). -/
def pickAction (pos : Int × Int) (state : EditorState) : Action :=
  { color := state.picture.pixel pos.1 pos.2 }

/-- The 4-neighborhood `around` of the flood fill. -/
def around : List (Int × Int) := [(-1, 0), (1, 0), (0, -1), (0, 1)]

/-- The body of the flood fill's inner `for (let {dx, dy} of around)` step
for one offset `d`: starting from the visited list `dr`, look at the
neighbor of `dr[done]` shifted by `d` and push it if it is in-bounds, has
the target color, and is not yet in the list.  Like the source, the
membership test sees elements pushed earlier in the same pass. -/
def fillPush (picture : Picture) (target : Option Color) (color : Color)
    (done : Nat) (dr : List Edit) (d : Int × Int) : List Edit :=
  let p := dr.getD done ⟨0, 0, color⟩
  let x := p.x + d.1
  let y := p.y + d.2
  if 0 ≤ x ∧ x < (picture.width : Int) ∧
     0 ≤ y ∧ y < (picture.height : Int) ∧
     picture.pixel x y = target ∧
     dr.any (fun q => q.x == x && q.y == y) = false
  then dr ++ [⟨x, y, color⟩] else dr

/-- One iteration of the flood fill's outer loop: process index `done`
against all four neighbors. -/
def fillStep (picture : Picture) (target : Option Color) (color : Color)
    (drawn : List Edit) (done : Nat) : List Edit :=
  around.foldl (fillPush picture target color done) drawn

/-- The flood fill's worklist loop
`for (let done = 0; done < drawn.length; done++)`, written with fuel: each
recursive step handles one `done` index.  `fillEdits` supplies enough fuel
for the loop to run to completion (the stability theorem below proves the
result no longer changes when more fuel is added). -/
def fillLoop (picture : Picture) (target : Option Color) (color : Color) :
    Nat → List Edit → Nat → List Edit
  | 0, drawn, _ => drawn
  | fuel + 1, drawn, done =>
      if done < drawn.length then
        fillLoop picture target color fuel
          (fillStep picture target color drawn done) (done + 1)
      else drawn

/-- The `fill` tool: the `drawn` list it dispatches, seeded (unclipped, as
in the source) with the start cell. -/
def fillEdits (pos : Int × Int) (state : EditorState) : List Edit :=
  let targetColor := state.picture.pixel pos.1 pos.2
  fillLoop state.picture targetColor state.color
    (state.picture.width * state.picture.height + 1)
    [⟨pos.1, pos.2, state.color⟩] 0

/-- An edit whose coordinates lie inside the grid. -/
def InBoundsEdit (picture : Picture) (e : Edit) : Prop :=
  0 ≤ e.x ∧ e.x < (picture.width : Int) ∧
  0 ≤ e.y ∧ e.y < (picture.height : Int)

instance (picture : Picture) (e : Edit) : Decidable (InBoundsEdit picture e) := by
  unfold InBoundsEdit; infer_instance

/-- No two elements of the list share coordinates. -/
def DistinctCoords (l : List Edit) : Prop :=
  l.Pairwise (fun p q => ¬ (p.x = q.x ∧ p.y = q.y))

instance (l : List Edit) : Decidable (DistinctCoords l) := by
  unfold DistinctCoords; infer_instance

/-- The flood-fill worklist invariant: the list starts with the seed, no
cell occurs twice, and every non-seed element was pushed by the guard — it
is in-bounds, has the target color, carries the fill color, and is
4-adjacent to some element of the list. -/
def FillInv (picture : Picture) (target : Option Color) (color : Color)
    (seed : Edit) (drawn : List Edit) : Prop :=
  drawn ≠ [] ∧ drawn.head? = some seed ∧ DistinctCoords drawn ∧
  ∀ e ∈ drawn, e = seed ∨
    (InBoundsEdit picture e ∧ picture.pixel e.x e.y = target ∧
     e.color = color ∧
     ∃ q ∈ drawn, (q.x - e.x).natAbs + (q.y - e.y).natAbs = 1)

/-- Two distinct recorded pictures used to exercise the undo order. -/
def picA : Picture := Picture.empty 1 1 "#111111"

def picB : Picture := Picture.empty 1 1 "#222222"

/-- A state whose history holds `picA` (recorded most recently, at the
front) and `picB` (recorded first, at the back). -/
def stateAB : EditorState :=
  { tool := "draw"
    color := "#000000"
    picture := Picture.empty 1 1 "#f0f0f0"
    done := [picA, picB]
    doneAt := 0 }

/-- C8: undo with empty history returns the identical state, not an error. -/
theorem undo_empty_history_noop (s : EditorState) (a : Action) (now : Int)
    (hu : a.undo = true) (h : s.done = []) :
    historyUpdateState now s a = s := by
  simp [historyUpdateState, hu, h]

theorem undo_empty_history_noop_witness :
    historyUpdateState 5000 startState { undo := true } = startState :=
  undo_empty_history_noop startState { undo := true } 5000 rfl rfl

/-- C1: a picture-carrying action taken when the checkpoint is stale
(elapsed time since `doneAt` exceeds 1000 ms) pushes the pre-action picture
onto the front of history and sets the checkpoint to `now`; within the
window it merges without recording.  Consequently `{picture := P1}`,
`{picture := P2}` within the window, then `{undo := true}` restores the
picture from before `P1`. -/
theorem history_coalescing (s : EditorState) (a : Action) (now : Int)
    (p : Picture) (hp : a.picture = some p) (hu : a.undo = false) :
    (s.doneAt < now - 1000 →
      historyUpdateState now s a =
        { s.merge a with done := s.picture :: s.done, doneAt := now }) ∧
    (¬ s.doneAt < now - 1000 →
      historyUpdateState now s a = s.merge a) ∧
    (∀ t1 t2 t3 : Int, ∀ p1 p2 : Picture,
      s.doneAt < t1 - 1000 → t2 ≤ t1 + 1000 →
      (historyUpdateState t3
        (historyUpdateState t2
          (historyUpdateState t1 s { picture := some p1 })
          { picture := some p2 })
        { undo := true }).picture = s.picture) := by
  refine ⟨fun hlt => ?_, fun hge => ?_, fun t1 t2 t3 p1 p2 h1 h2 => ?_⟩
  · simp [historyUpdateState, hu, hp, hlt]
  · simp [historyUpdateState, hu, hp, hge]
  · have hstep1 :
        historyUpdateState t1 s { picture := some p1 } =
          { s.merge { picture := some p1 } with
            done := s.picture :: s.done, doneAt := t1 } := by
      simp [historyUpdateState, h1]
    have hstep2 : ¬ (t1 : Int) < t2 - 1000 := by omega
    rw [hstep1]
    simp [historyUpdateState, hstep2, EditorState.merge]

theorem history_coalescing_witness :
    (Action.picture { picture := some (Picture.empty 1 1 "#101010") } =
        some (Picture.empty 1 1 "#101010")) ∧
    (startState.doneAt < 5000 - 1000) ∧
    (historyUpdateState 5300
      (historyUpdateState 5200
        (historyUpdateState 5000 startState
          { picture := some (Picture.empty 1 1 "#101010") })
        { picture := some (Picture.empty 1 1 "#202020") })
      { undo := true }).picture = startState.picture :=
  ⟨rfl, by decide,
    (history_coalescing startState
      { picture := some (Picture.empty 1 1 "#101010") } 5000
      (Picture.empty 1 1 "#101010") rfl rfl).2.2
      5000 5200 5300 (Picture.empty 1 1 "#101010")
      (Picture.empty 1 1 "#202020") (by decide) (by decide)⟩

/-- C3 counterexample: with history `[picA, picB]` (most-recent-first, so
`picB` is the oldest-recorded grid), undo restores `picA`, the
most-recently-recorded grid, not the oldest-recorded one. -/
theorem undo_restores_head_not_oldest :
    stateAB.done.getLast? = some picB ∧
    (historyUpdateState 5000 stateAB { undo := true }).picture = picA ∧
    picA ≠ picB := by
  refine ⟨rfl, rfl, ?_⟩
  intro h
  simpa [picA, picB, Picture.empty] using congrArg Picture.pixels h

/-- C3 (amended): for every state whose history is non-empty, `{undo := true}`
produces a state whose picture is the most-recently-recorded grid (the head
of the most-recent-first history), with that grid removed from history, so
the history length decreases by exactly one. -/
theorem undo_pops_most_recent (s : EditorState) (a : Action) (now : Int)
    (hu : a.undo = true) (g : Picture) (rest : List Picture)
    (h : s.done = g :: rest) :
    historyUpdateState now s a =
      { s with picture := g, done := rest, doneAt := 0 } ∧
    (historyUpdateState now s a).done.length + 1 = s.done.length := by
  constructor
  · simp [historyUpdateState, hu, h]
  · simp [historyUpdateState, hu, h]

theorem undo_pops_most_recent_witness :
    historyUpdateState 5000 stateAB { undo := true } =
      { stateAB with picture := picA, done := [picB], doneAt := 0 } ∧
    (historyUpdateState 5000 stateAB { undo := true }).done.length + 1 =
      stateAB.done.length :=
  undo_pops_most_recent stateAB { undo := true } 5000 rfl picA [picB] rfl

/-- C10: undo on a non-empty history changes only the `picture`, `done` and
`doneAt` fields — `tool` and `color` are preserved — and resets the
checkpoint to 0, so any subsequent picture-carrying action at a timestamp
greater than 1000 records a new history entry. -/
theorem undo_frame (s : EditorState) (a : Action) (now : Int)
    (hu : a.undo = true) (hne : s.done ≠ []) :
    (historyUpdateState now s a).tool = s.tool ∧
    (historyUpdateState now s a).color = s.color ∧
    (historyUpdateState now s a).doneAt = 0 ∧
    (∀ (now2 : Int) (b : Action), b.picture.isSome → b.undo = false →
      1000 < now2 →
      (historyUpdateState now2 (historyUpdateState now s a) b).done =
        (historyUpdateState now s a).picture ::
          (historyUpdateState now s a).done) := by
  have hlen : s.done.length ≠ 0 := by
    simpa [List.length_eq_zero] using hne
  refine ⟨?_, ?_, ?_, ?_⟩
  · simp [historyUpdateState, hu, hlen]
  · simp [historyUpdateState, hu, hlen]
  · simp [historyUpdateState, hu, hlen]
  · intro now2 b hb hbu hnow2
    have hs' : historyUpdateState now s a =
        { s with picture := s.done.headD s.picture
                 done := s.done.tail, doneAt := 0 } := by
      simp [historyUpdateState, hu, hlen]
    have hwin : (0 : Int) < now2 - 1000 := by omega
    rw [hs']
    simp [historyUpdateState, hbu, hb, hwin]

theorem undo_frame_witness :
    (historyUpdateState 5000 stateAB { undo := true }).tool = stateAB.tool ∧
    (historyUpdateState 5000 stateAB { undo := true }).color =
      stateAB.color ∧
    (historyUpdateState 5000 stateAB { undo := true }).doneAt = 0 ∧
    (historyUpdateState 7000 (historyUpdateState 5000 stateAB { undo := true })
        { picture := some picB }).done =
      (historyUpdateState 5000 stateAB { undo := true }).picture ::
        (historyUpdateState 5000 stateAB { undo := true }).done :=
  ⟨(undo_frame stateAB { undo := true } 5000 rfl (by decide)).1,
   (undo_frame stateAB { undo := true } 5000 rfl (by decide)).2.1,
   (undo_frame stateAB { undo := true } 5000 rfl (by decide)).2.2.1,
   (undo_frame stateAB { undo := true } 5000 rfl (by decide)).2.2.2
     7000 { picture := some picB } rfl rfl (by decide)⟩

/-! Row-major indexing facts shared by the `Picture` proofs. -/

theorem rowMajor_lt {w h : Nat} {x y : Int}
    (hx1 : 0 ≤ x) (hx2 : x < (w : Int)) (hy1 : 0 ≤ y) (hy2 : y < (h : Int)) :
    x + y * (w : Int) < ((w * h : Nat) : Int) := by
  have h1 : y + 1 ≤ (h : Int) := by omega
  have h2 : (y + 1) * (w : Int) ≤ (h : Int) * (w : Int) :=
    mul_le_mul_of_nonneg_right h1 (by positivity)
  push_cast
  nlinarith

theorem rowMajor_inj {w h : Nat} {x y a b : Int}
    (hx1 : 0 ≤ x) (hx2 : x < (w : Int)) (hy1 : 0 ≤ y) (hy2 : y < (h : Int))
    (ha1 : 0 ≤ a) (ha2 : a < (w : Int)) (hb1 : 0 ≤ b) (hb2 : b < (h : Int))
    (heq : x + y * (w : Int) = a + b * (w : Int)) : x = a ∧ y = b := by
  have hw : (0 : Int) < (w : Int) := by omega
  have hyb : y = b := by
    by_contra hne
    rcases (by omega : y < b ∨ b < y) with h1 | h1
    · have h2 : (y + 1) * (w : Int) ≤ b * (w : Int) :=
        mul_le_mul_of_nonneg_right (by omega) (le_of_lt hw)
      nlinarith
    · have h2 : (b + 1) * (w : Int) ≤ y * (w : Int) :=
        mul_le_mul_of_nonneg_right (by omega) (le_of_lt hw)
      nlinarith
  refine ⟨?_, hyb⟩
  rw [hyb] at heq
  linarith

theorem draw_width (p : Picture) (E : List Edit) :
    (p.draw E).width = p.width := rfl

theorem draw_height (p : Picture) (E : List Edit) :
    (p.draw E).height = p.height := rfl

theorem length_foldl_set (w : Nat) (E : List Edit) (px : List Color) :
    (E.foldl (fun copy e =>
      let idx := e.x + e.y * (w : Int)
      if 0 ≤ idx then copy.set idx.toNat e.color else copy) px).length =
    px.length := by
  induction E generalizing px with
  | nil => rfl
  | cons e E ih =>
    simp only [List.foldl_cons]
    rw [ih]
    split <;> simp

theorem draw_pixels_length (p : Picture) (E : List Edit) :
    (p.draw E).pixels.length = p.pixels.length :=
  length_foldl_set p.width E p.pixels

theorem draw_wellFormed (p : Picture) (E : List Edit) (hwf : p.WellFormed) :
    (p.draw E).WellFormed := by
  unfold Picture.WellFormed at hwf ⊢
  rw [draw_pixels_length, draw_width, draw_height]
  exact hwf

theorem draw_nil (p : Picture) : p.draw [] = p := rfl

theorem draw_concat (p : Picture) (E : List Edit) (e : Edit) :
    p.draw (E ++ [e]) = (p.draw E).draw [e] := by
  unfold Picture.draw
  simp [List.foldl_append]

/-- Applying one in-bounds edit changes exactly its own cell, as seen by
in-bounds reads. -/
theorem pixel_draw_single (p : Picture) (e : Edit) (x y : Int)
    (hwf : p.WellFormed)
    (he1 : 0 ≤ e.x) (he2 : e.x < (p.width : Int))
    (he3 : 0 ≤ e.y) (he4 : e.y < (p.height : Int))
    (hx1 : 0 ≤ x) (hx2 : x < (p.width : Int))
    (hy1 : 0 ≤ y) (hy2 : y < (p.height : Int)) :
    (p.draw [e]).pixel x y =
      if e.x = x ∧ e.y = y then some e.color else p.pixel x y := by
  have hie : (0 : Int) ≤ e.x + e.y * (p.width : Int) := by positivity
  have hix : (0 : Int) ≤ x + y * (p.width : Int) := by positivity
  have hlt : e.x + e.y * (p.width : Int) < ((p.width * p.height : Nat) : Int) :=
    rowMajor_lt he1 he2 he3 he4
  have hltn : (e.x + e.y * (p.width : Int)).toNat < p.pixels.length := by
    unfold Picture.WellFormed at hwf
    omega
  have hpx : (p.draw [e]).pixels =
      p.pixels.set (e.x + e.y * (p.width : Int)).toNat e.color := by
    unfold Picture.draw
    simp [hie]
  by_cases hmatch : e.x = x ∧ e.y = y
  · obtain ⟨hmx, hmy⟩ := hmatch
    subst hmx; subst hmy
    rw [if_pos ⟨rfl, rfl⟩]
    show (if 0 ≤ e.x + e.y * ((p.draw [e]).width : Int) then
        (p.draw [e]).pixels[(e.x + e.y * ((p.draw [e]).width : Int)).toNat]?
      else none) = some e.color
    rw [draw_width, hpx, if_pos hie, List.getElem?_set_eq_of_lt e.color hltn]
  · rw [if_neg hmatch]
    have hne : e.x + e.y * (p.width : Int) ≠ x + y * (p.width : Int) := by
      intro hcontra
      exact hmatch (rowMajor_inj he1 he2 he3 he4 hx1 hx2 hy1 hy2 hcontra)
    have hnen : (e.x + e.y * (p.width : Int)).toNat ≠
        (x + y * (p.width : Int)).toNat := by omega
    show (if 0 ≤ x + y * ((p.draw [e]).width : Int) then
        (p.draw [e]).pixels[(x + y * ((p.draw [e]).width : Int)).toNat]?
      else none) =
      (if 0 ≤ x + y * (p.width : Int) then
        p.pixels[(x + y * (p.width : Int)).toNat]? else none)
    rw [draw_width, hpx, if_pos hix, if_pos hix, List.getElem?_set_ne hnen]

theorem lastMatch_concat (E : List Edit) (e : Edit) (x y : Int) :
    lastMatch (E ++ [e]) x y =
      if e.x = x ∧ e.y = y then some e.color else lastMatch E x y := by
  unfold lastMatch
  rw [List.filter_append]
  by_cases hmatch : e.x = x ∧ e.y = y
  · simp [List.getLast?_append, hmatch]
  · have hb : ¬ (e.x == x && e.y == y) = true := by
      simpa using hmatch
    simp [List.getLast?_append, hb, hmatch]

/-- C2 (amended): for every well-formed Grid, every sequence of *in-bounds*
edits, and every in-bounds coordinate, `draw` gives the color of the last
matching edit, or the original color when none matches; later edits win on
duplicate coordinates.  (The in-bounds restriction on the edits is forced:
an out-of-bounds edit can alias a different in-bounds cell through the
row-major index, see the counterexample.) -/
theorem draw_last_edit_wins (g : Picture) (E : List Edit) (x y : Int)
    (hwf : g.WellFormed)
    (hE : ∀ e ∈ E, 0 ≤ e.x ∧ e.x < (g.width : Int) ∧
      0 ≤ e.y ∧ e.y < (g.height : Int))
    (hx1 : 0 ≤ x) (hx2 : x < (g.width : Int))
    (hy1 : 0 ≤ y) (hy2 : y < (g.height : Int)) :
    (g.draw E).pixel x y = (lastMatch E x y).or (g.pixel x y) := by
  induction E using List.reverseRecOn with
  | nil => simp [draw_nil, lastMatch]
  | append_singleton E e ih =>
    have hEe := hE e (by simp)
    have hE2 : ∀ e2 ∈ E, 0 ≤ e2.x ∧ e2.x < (g.width : Int) ∧
        0 ≤ e2.y ∧ e2.y < (g.height : Int) :=
      fun e2 he2 => hE e2 (by simp [he2])
    rw [draw_concat, lastMatch_concat]
    rw [pixel_draw_single (g.draw E) e x y (draw_wellFormed g E hwf)
      hEe.1 hEe.2.1 hEe.2.2.1 hEe.2.2.2 hx1 hx2 hy1 hy2]
    rw [ih hE2]
    by_cases hmatch : e.x = x ∧ e.y = y
    · simp [hmatch]
    · simp [hmatch]

theorem draw_last_edit_wins_witness :
    ((Picture.empty 2 2 "#ffffff").draw
        [⟨0, 1, "#111111"⟩, ⟨0, 1, "#222222"⟩]).pixel 0 1 =
      (lastMatch [⟨0, 1, "#111111"⟩, ⟨0, 1, "#222222"⟩] 0 1).or
        ((Picture.empty 2 2 "#ffffff").pixel 0 1) :=
  draw_last_edit_wins (Picture.empty 2 2 "#ffffff")
    [⟨0, 1, "#111111"⟩, ⟨0, 1, "#222222"⟩] 0 1 (by decide)
    (by decide) (by decide) (by decide) (by decide) (by decide)

/-- C2 counterexample: on a 2-by-2 all-white grid, the single out-of-bounds
edit at `(2, 0)` writes row-major index 2, which is cell `(0, 1)`: the cell
at `(0, 1)` ends up with the edit's color even though no edit in the
sequence has coordinates `(0, 1)`, contradicting the claim for arbitrary
edit sequences. -/
theorem draw_oob_edit_aliases :
    ((Picture.empty 2 2 "#ffffff").draw [⟨2, 0, "#000000"⟩]).pixel 0 1 =
      some "#000000" ∧
    lastMatch [⟨2, 0, "#000000"⟩] 0 1 = none ∧
    (Picture.empty 2 2 "#ffffff").pixel 0 1 = some "#ffffff" ∧
    ("#000000" : Color) ≠ "#ffffff" := by
  refine ⟨rfl, rfl, rfl, ?_⟩
  decide

/-- C9 (amended): `Picture.pixel` never fails and performs no bounds check.
For a well-formed Grid: at in-bounds coordinates it returns (`some` of) the
stored color at row-major index `x + y·width`; at out-of-bounds coordinates
whose row-major index still lands inside the backing array it returns the
color of a *different, in-bounds* cell (aliasing); and when the index falls
outside the array (negative, or at least `width·height`) it returns no
color (`none`, JavaScript `undefined`) — in no case an error. -/
theorem pixel_no_bounds_check (g : Picture) (x y : Int) (hwf : g.WellFormed) :
    (0 ≤ x → x < (g.width : Int) → 0 ≤ y → y < (g.height : Int) →
      g.pixel x y = g.pixels[(x + y * (g.width : Int)).toNat]? ∧
      (g.pixel x y).isSome = true) ∧
    (¬ (0 ≤ x ∧ x < (g.width : Int) ∧ 0 ≤ y ∧ y < (g.height : Int)) →
      0 ≤ x + y * (g.width : Int) →
      x + y * (g.width : Int) < ((g.width * g.height : Nat) : Int) →
      ∃ a b : Int, 0 ≤ a ∧ a < (g.width : Int) ∧ 0 ≤ b ∧
        b < (g.height : Int) ∧ (a, b) ≠ (x, y) ∧
        g.pixel x y = g.pixel a b ∧ (g.pixel x y).isSome = true) ∧
    (¬ (0 ≤ x + y * (g.width : Int) ∧
        x + y * (g.width : Int) < ((g.width * g.height : Nat) : Int)) →
      g.pixel x y = none) := by
  unfold Picture.WellFormed at hwf
  refine ⟨fun hx1 hx2 hy1 hy2 => ?_, fun hoob hge hlt => ?_, fun hout => ?_⟩
  · have hix : (0 : Int) ≤ x + y * (g.width : Int) := by positivity
    have hlt : x + y * (g.width : Int) < ((g.width * g.height : Nat) : Int) :=
      rowMajor_lt hx1 hx2 hy1 hy2
    have hlen : (x + y * (g.width : Int)).toNat < g.pixels.length := by omega
    constructor
    · show (if 0 ≤ x + y * (g.width : Int) then
          g.pixels[(x + y * (g.width : Int)).toNat]? else none) = _
      rw [if_pos hix]
    · show ((if 0 ≤ x + y * (g.width : Int) then
          g.pixels[(x + y * (g.width : Int)).toNat]? else none)).isSome = true
      rw [if_pos hix, List.getElem?_eq_getElem hlen]
      rfl
  · have hw : (0 : Int) < (g.width : Int) := by
      rcases Nat.eq_zero_or_pos g.width with h0 | hpos
      · exfalso; rw [h0] at hlt hge; push_cast at hlt hge; omega
      · exact_mod_cast hpos
    have hdivlt : (x + y * (g.width : Int)) / (g.width : Int) <
        (g.height : Int) := by
      rw [Int.ediv_lt_iff_lt_mul hw]
      push_cast at hlt
      nlinarith
    refine ⟨(x + y * (g.width : Int)) % (g.width : Int),
            (x + y * (g.width : Int)) / (g.width : Int),
            Int.emod_nonneg _ (by omega), Int.emod_lt_of_pos _ hw,
            Int.ediv_nonneg hge (le_of_lt hw), hdivlt, ?_, ?_, ?_⟩
    · intro hcontra
      rw [Prod.mk.injEq] at hcontra
      exact hoob ⟨hcontra.1 ▸ Int.emod_nonneg _ (by omega),
        hcontra.1 ▸ Int.emod_lt_of_pos _ hw,
        hcontra.2 ▸ Int.ediv_nonneg hge (le_of_lt hw),
        hcontra.2 ▸ hdivlt⟩
    · have hdm : (x + y * (g.width : Int)) % (g.width : Int) +
          ((x + y * (g.width : Int)) / (g.width : Int)) *
            (g.width : Int) = x + y * (g.width : Int) :=
        Int.emod_add_ediv' _ _
      show (if 0 ≤ x + y * (g.width : Int) then
          g.pixels[(x + y * (g.width : Int)).toNat]? else none) =
        (if 0 ≤ (x + y * (g.width : Int)) % (g.width : Int) +
            ((x + y * (g.width : Int)) / (g.width : Int)) * (g.width : Int)
          then g.pixels[((x + y * (g.width : Int)) % (g.width : Int) +
            ((x + y * (g.width : Int)) / (g.width : Int)) *
              (g.width : Int)).toNat]?
          else none)
      rw [hdm]
    · have hlen : (x + y * (g.width : Int)).toNat < g.pixels.length := by
        omega
      show ((if 0 ≤ x + y * (g.width : Int) then
          g.pixels[(x + y * (g.width : Int)).toNat]? else none)).isSome = true
      rw [if_pos hge, List.getElem?_eq_getElem hlen]
      rfl
  · by_cases hge : 0 ≤ x + y * (g.width : Int)
    · have hout2 : ((g.width * g.height : Nat) : Int) ≤
          x + y * (g.width : Int) := by
        by_contra hcontra
        exact hout ⟨hge, by omega⟩
      have hlen : g.pixels.length ≤ (x + y * (g.width : Int)).toNat := by
        omega
      show (if 0 ≤ x + y * (g.width : Int) then
          g.pixels[(x + y * (g.width : Int)).toNat]? else none) = none
      rw [if_pos hge, List.getElem?_eq_none_iff.mpr hlen]
    · show (if 0 ≤ x + y * (g.width : Int) then
          g.pixels[(x + y * (g.width : Int)).toNat]? else none) = none
      rw [if_neg hge]

theorem pixel_no_bounds_check_witness :
    (Picture.empty 2 2 "#ffffff").pixel 0 1 =
      (Picture.empty 2 2 "#ffffff").pixels[
        ((0 : Int) + 1 * ((Picture.empty 2 2 "#ffffff").width : Int)).toNat]? ∧
    ((Picture.empty 2 2 "#ffffff").pixel 0 1).isSome = true :=
  (pixel_no_bounds_check (Picture.empty 2 2 "#ffffff") 0 1 (by decide)).1
    (by decide) (by decide) (by decide) (by decide)

/-- C9 counterexample: on a 2-by-2 grid whose four cells have four distinct
colors, reading the out-of-bounds coordinate `(2, 0)` does not fail: it
returns a color — in fact the color of the in-bounds cell `(0, 1)` with the
same row-major index 2. -/
theorem pixel_oob_returns_color :
    (Picture.mk 2 2 ["#aa0000", "#bb0000", "#cc0000", "#dd0000"]).pixel 2 0 =
      some "#cc0000" ∧
    (Picture.mk 2 2 ["#aa0000", "#bb0000", "#cc0000", "#dd0000"]).pixel 2 0 =
      (Picture.mk 2 2 ["#aa0000", "#bb0000", "#cc0000", "#dd0000"]).pixel
        0 1 := by
  exact ⟨rfl, rfl⟩

/-! Incremental renderer. -/

theorem mem_allCells (w h x y : Nat) :
    (x, y) ∈ allCells w h ↔ x < w ∧ y < h := by
  simp only [allCells, List.mem_flatMap, List.mem_map, List.mem_range,
    Prod.mk.injEq]
  constructor
  · rintro ⟨a, ha, b, hb, rfl, rfl⟩
    exact ⟨hb, ha⟩
  · rintro ⟨hx, hy⟩
    exact ⟨y, hy, x, hx, rfl, rfl⟩

/-- C7: the incremental renderer draws exactly the cells whose color differs
between the new and the previous grid; with no previous grid or differing
dimensions it resizes the surface and draws every cell; and when the
previous grid is cell-by-cell equal to the new one it draws zero cells. -/
theorem renderer_draws_exactly_diff (picture prev : Picture) :
    (drawPictureCells picture none =
      (true, allCells picture.width picture.height)) ∧
    (¬ (prev.width = picture.width ∧ prev.height = picture.height) →
      drawPictureCells picture (some prev) =
        (true, allCells picture.width picture.height)) ∧
    (prev.width = picture.width → prev.height = picture.height →
      ∀ x y : Nat, ((x, y) ∈ (drawPictureCells picture (some prev)).2 ↔
        x < picture.width ∧ y < picture.height ∧
          prev.pixel (x : Int) (y : Int) ≠ picture.pixel (x : Int) (y : Int))) ∧
    (prev.width = picture.width → prev.height = picture.height →
      (∀ x : Nat, x < picture.width → ∀ y : Nat, y < picture.height →
        prev.pixel (x : Int) (y : Int) = picture.pixel (x : Int) (y : Int)) →
      (drawPictureCells picture (some prev)).2 = []) := by
  refine ⟨?_, fun hdim => ?_, fun hw hh x y => ?_, fun hw hh heq => ?_⟩
  · simp [drawPictureCells]
  · simp [drawPictureCells, hdim]
  · have hcond : prev.width = picture.width ∧ prev.height = picture.height :=
      ⟨hw, hh⟩
    simp only [drawPictureCells, if_pos hcond, List.mem_filter,
      mem_allCells, decide_eq_true_eq]
    tauto
  · have hcond : prev.width = picture.width ∧ prev.height = picture.height :=
      ⟨hw, hh⟩
    simp only [drawPictureCells, if_pos hcond]
    rw [List.filter_eq_nil_iff]
    rintro ⟨x, y⟩ hmem
    rw [mem_allCells] at hmem
    simp only [decide_eq_true_eq, not_not]
    exact heq x hmem.1 y hmem.2

theorem renderer_draws_exactly_diff_witness :
    (drawPictureCells (Picture.empty 2 1 "#ffffff") none =
      (true, allCells 2 1)) ∧
    (drawPictureCells (Picture.empty 2 1 "#ffffff")
        (some (Picture.empty 2 1 "#ffffff"))).2 = [] :=
  ⟨(renderer_draws_exactly_diff (Picture.empty 2 1 "#ffffff")
      (Picture.empty 2 1 "#ffffff")).1,
   (renderer_draws_exactly_diff (Picture.empty 2 1 "#ffffff")
      (Picture.empty 2 1 "#ffffff")).2.2.2 rfl rfl (by decide)⟩

/-! Flood-fill worklist lemmas. -/

theorem fillPush_cases (picture : Picture) (target : Option Color)
    (color : Color) (done : Nat) (dr : List Edit) (d : Int × Int) :
    fillPush picture target color done dr d = dr ∨
    ∃ e : Edit,
      fillPush picture target color done dr d = dr ++ [e] ∧
      e.color = color ∧ InBoundsEdit picture e ∧
      picture.pixel e.x e.y = target ∧
      (∀ q ∈ dr, ¬ (q.x = e.x ∧ q.y = e.y)) ∧
      e.x = (dr.getD done ⟨0, 0, color⟩).x + d.1 ∧
      e.y = (dr.getD done ⟨0, 0, color⟩).y + d.2 := by
  simp only [fillPush]
  split
  case isTrue h =>
    right
    refine ⟨⟨(dr.getD done ⟨0, 0, color⟩).x + d.1,
             (dr.getD done ⟨0, 0, color⟩).y + d.2, color⟩,
      rfl, rfl, ⟨h.1, h.2.1, h.2.2.1, h.2.2.2.1⟩, h.2.2.2.2.1, ?_, rfl, rfl⟩
    intro q hq hcontra
    have hfalse := List.any_eq_false.mp h.2.2.2.2.2 q hq
    apply hfalse
    simp [hcontra.1, hcontra.2]
  case isFalse h => exact Or.inl rfl

theorem fillPush_extends (picture : Picture) (target : Option Color)
    (color : Color) (done : Nat) (dr : List Edit) (d : Int × Int) :
    dr <+: fillPush picture target color done dr d := by
  rcases fillPush_cases picture target color done dr d with h | ⟨e, h, _⟩
  · rw [h]
  · rw [h]; exact List.prefix_append dr [e]

theorem fillPush_inv (picture : Picture) (target : Option Color)
    (color : Color) (seed : Edit) (done : Nat) (dr : List Edit)
    (d : Int × Int) (hd : d.1.natAbs + d.2.natAbs = 1)
    (hdone : done < dr.length)
    (hinv : FillInv picture target color seed dr) :
    FillInv picture target color seed
      (fillPush picture target color done dr d) := by
  rcases fillPush_cases picture target color done dr d with h |
    ⟨e, h, hcol, hin, hpix, hfresh, hex, hey⟩
  · rw [h]; exact hinv
  · rw [h]
    obtain ⟨hne, hhead, hdist, helts⟩ := hinv
    have hp : dr.getD done ⟨0, 0, color⟩ ∈ dr := by
      rw [List.getD_eq_getElem dr _ hdone]
      exact List.getElem_mem hdone
    refine ⟨by simp, ?_, ?_, ?_⟩
    · rw [List.head?_append, hhead]; rfl
    · rw [DistinctCoords, List.pairwise_append]
      exact ⟨hdist, List.pairwise_singleton _ _,
        fun a ha b hb => by
          rw [List.mem_singleton] at hb
          subst hb
          exact hfresh a ha⟩
    · intro e2 he2
      rw [List.mem_append] at he2
      rcases he2 with he2 | he2
      · rcases helts e2 he2 with h2 | ⟨h2a, h2b, h2c, q, hq, hq2⟩
        · exact Or.inl h2
        · exact Or.inr ⟨h2a, h2b, h2c, q, List.mem_append_left _ hq, hq2⟩
      · rw [List.mem_singleton] at he2
        subst he2
        refine Or.inr ⟨hin, hpix, hcol,
          dr.getD done ⟨0, 0, color⟩, List.mem_append_left _ hp, ?_⟩
        omega

theorem fillStep_extends (picture : Picture) (target : Option Color)
    (color : Color) (drawn : List Edit) (done : Nat) :
    drawn <+: fillStep picture target color drawn done := by
  have hgen : ∀ (l : List (Int × Int)) (dr : List Edit),
      dr <+: l.foldl (fillPush picture target color done) dr := by
    intro l
    induction l with
    | nil => intro dr; exact List.prefix_rfl
    | cons d l ih =>
      intro dr
      rw [List.foldl_cons]
      exact (fillPush_extends picture target color done dr d).trans
        (ih (fillPush picture target color done dr d))
  exact hgen around drawn

theorem fillStep_inv (picture : Picture) (target : Option Color)
    (color : Color) (seed : Edit) (drawn : List Edit) (done : Nat)
    (hdone : done < drawn.length)
    (hinv : FillInv picture target color seed drawn) :
    FillInv picture target color seed
      (fillStep picture target color drawn done) := by
  have hgen : ∀ (l : List (Int × Int)),
      (∀ d ∈ l, d.1.natAbs + d.2.natAbs = 1) →
      ∀ dr : List Edit, done < dr.length →
        FillInv picture target color seed dr →
        FillInv picture target color seed
          (l.foldl (fillPush picture target color done) dr) := by
    intro l
    induction l with
    | nil => intro _ dr _ hi; exact hi
    | cons d l ih =>
      intro hl dr hlen hi
      rw [List.foldl_cons]
      have hd := hl d (List.mem_cons_self d l)
      have hpre := fillPush_extends picture target color done dr d
      exact ih (fun d2 h2 => hl d2 (List.mem_cons_of_mem d h2))
        (fillPush picture target color done dr d)
        (Nat.lt_of_lt_of_le hlen hpre.length_le)
        (fillPush_inv picture target color seed done dr d hd hlen hi)
  exact hgen around (by decide) drawn hdone hinv

theorem fillLoop_extends (picture : Picture) (target : Option Color)
    (color : Color) (fuel : Nat) :
    ∀ (drawn : List Edit) (done : Nat),
      drawn <+: fillLoop picture target color fuel drawn done := by
  induction fuel with
  | zero => intro drawn done; exact List.prefix_rfl
  | succ fuel ih =>
    intro drawn done
    rw [fillLoop]
    split
    case isTrue h =>
      exact (fillStep_extends picture target color drawn done).trans
        (ih (fillStep picture target color drawn done) (done + 1))
    case isFalse h => exact List.prefix_rfl

theorem fillLoop_inv (picture : Picture) (target : Option Color)
    (color : Color) (seed : Edit) (fuel : Nat) :
    ∀ (drawn : List Edit) (done : Nat),
      FillInv picture target color seed drawn →
      FillInv picture target color seed
        (fillLoop picture target color fuel drawn done) := by
  induction fuel with
  | zero => intro drawn done hi; exact hi
  | succ fuel ih =>
    intro drawn done hi
    rw [fillLoop]
    split
    case isTrue h =>
      exact ih (fillStep picture target color drawn done) (done + 1)
        (fillStep_inv picture target color seed drawn done h hi)
    case isFalse h => exact hi

theorem fillInv_init (picture : Picture) (target : Option Color)
    (color : Color) (seed : Edit) :
    FillInv picture target color seed [seed] :=
  ⟨by simp, rfl, List.pairwise_singleton _ _,
   fun e he => Or.inl (List.mem_singleton.mp he)⟩

/-- A list of pairwise-distinct in-bounds cells has at most
`width * height` elements. -/
theorem distinct_inbounds_length_le (picture : Picture) (l : List Edit)
    (hdist : DistinctCoords l)
    (hin : ∀ e ∈ l, InBoundsEdit picture e) :
    l.length ≤ picture.width * picture.height := by
  classical
  have hnodup : (l.map (fun e : Edit =>
      (e.x + e.y * (picture.width : Int)).toNat)).Nodup := by
    rw [List.Nodup, List.pairwise_map]
    refine List.Pairwise.imp_of_mem ?_ hdist
    intro a b ha hb hne heq
    obtain ⟨ha1, ha2, ha3, ha4⟩ := hin a ha
    obtain ⟨hb1, hb2, hb3, hb4⟩ := hin b hb
    apply hne
    have heq2 : (a.x + a.y * (picture.width : Int)).toNat =
        (b.x + b.y * (picture.width : Int)).toNat := heq
    have heqi : a.x + a.y * (picture.width : Int) =
        b.x + b.y * (picture.width : Int) := by
      have h0a : 0 ≤ a.x + a.y * (picture.width : Int) := by positivity
      have h0b : 0 ≤ b.x + b.y * (picture.width : Int) := by positivity
      omega
    exact rowMajor_inj ha1 ha2 ha3 ha4 hb1 hb2 hb3 hb4 heqi
  have hlt : ∀ n ∈ l.map (fun e : Edit =>
      (e.x + e.y * (picture.width : Int)).toNat),
      n < picture.width * picture.height := by
    intro n hn
    rw [List.mem_map] at hn
    obtain ⟨e, he, rfl⟩ := hn
    obtain ⟨h1, h2, h3, h4⟩ := hin e he
    have hrm := rowMajor_lt h1 h2 h3 h4
    have h0 : (0 : Int) ≤ e.x + e.y * (picture.width : Int) := by positivity
    exact (Int.toNat_lt h0).mpr hrm
  have hsub : (l.map (fun e : Edit =>
      (e.x + e.y * (picture.width : Int)).toNat)).toFinset ⊆
      Finset.range (picture.width * picture.height) := by
    intro n hn
    rw [Finset.mem_range]
    exact hlt n (List.mem_toFinset.mp hn)
  calc l.length
      = (l.map (fun e : Edit =>
          (e.x + e.y * (picture.width : Int)).toNat)).length :=
        (List.length_map l _).symm
    _ = (l.map (fun e : Edit =>
          (e.x + e.y * (picture.width : Int)).toNat)).toFinset.card :=
        (List.toFinset_card_of_nodup hnodup).symm
    _ ≤ (Finset.range (picture.width * picture.height)).card :=
        Finset.card_le_card hsub
    _ = picture.width * picture.height := Finset.card_range _

/-- Every cell of a worklist satisfying the invariant with an in-bounds
seed is in-bounds. -/
theorem fillInv_all_inbounds (picture : Picture) (target : Option Color)
    (color : Color) (seed : Edit) (drawn : List Edit)
    (hseed : InBoundsEdit picture seed)
    (hinv : FillInv picture target color seed drawn) :
    ∀ e ∈ drawn, InBoundsEdit picture e := by
  intro e he
  rcases hinv.2.2.2 e he with h | h
  · rw [h]; exact hseed
  · exact h.1

/-- With an in-bounds seed, the loop's result is unchanged by extra fuel
once `fuel + done` reaches `width * height`: the source's unfueled loop
terminates. -/
theorem fillLoop_stable (picture : Picture) (target : Option Color)
    (color : Color) (seed : Edit) (hseed : InBoundsEdit picture seed)
    (fuel : Nat) :
    ∀ (drawn : List Edit) (done : Nat),
      FillInv picture target color seed drawn →
      picture.width * picture.height ≤ fuel + done →
      fillLoop picture target color (fuel + 1) drawn done =
        fillLoop picture target color fuel drawn done := by
  induction fuel with
  | zero =>
    intro drawn done hinv hbound
    have hlen : drawn.length ≤ picture.width * picture.height :=
      distinct_inbounds_length_le picture drawn hinv.2.2.1
        (fillInv_all_inbounds picture target color seed drawn hseed hinv)
    have hguard : ¬ done < drawn.length := by omega
    show (if done < drawn.length then
        fillLoop picture target color 0
          (fillStep picture target color drawn done) (done + 1)
      else drawn) = drawn
    rw [if_neg hguard]
  | succ fuel ih =>
    intro drawn done hinv hbound
    rw [fillLoop]
    conv_rhs => rw [fillLoop]
    split
    case isTrue h =>
      exact ih (fillStep picture target color drawn done) (done + 1)
        (fillStep_inv picture target color seed drawn done h hinv)
        (by omega)
    case isFalse h => rfl

/-! Tool-level theorems. -/

theorem mem_intRange (a b v : Int) : v ∈ intRange a b ↔ a ≤ v ∧ v ≤ b := by
  simp only [intRange, List.mem_map, List.mem_range]
  constructor
  · rintro ⟨i, hi, rfl⟩
    omega
  · rintro ⟨h1, h2⟩
    exact ⟨(v - a).toNat, by omega, by omega⟩

theorem intRange_length (a b : Int) :
    (intRange a b).length = (b + 1 - a).toNat := by
  rw [intRange, List.length_map, List.length_range]

theorem circleEdits_inbounds (pos cur : Int × Int) (state : EditorState) :
    ∀ e ∈ circleEdits pos cur state, InBoundsEdit state.picture e := by
  intro e he
  simp only [circleEdits, List.mem_flatMap, List.mem_filterMap] at he
  obtain ⟨dy, hdy, dx, hdx, hopt⟩ := he
  split at hopt
  · exact absurd hopt (by simp)
  · split at hopt
    case isTrue h => exact absurd hopt (by simp)
    case isFalse h =>
      push_neg at h
      cases hopt
      refine ⟨?_, ?_, ?_, ?_⟩
      · show (0 : Int) ≤ pos.1 + dx
        omega
      · show pos.1 + dx < (state.picture.width : Int)
        omega
      · show (0 : Int) ≤ pos.2 + dy
        omega
      · show pos.2 + dy < (state.picture.height : Int)
        omega

theorem fillEdits_inv (pos : Int × Int) (state : EditorState) :
    FillInv state.picture (state.picture.pixel pos.1 pos.2) state.color
      ⟨pos.1, pos.2, state.color⟩ (fillEdits pos state) :=
  fillLoop_inv state.picture (state.picture.pixel pos.1 pos.2) state.color
    ⟨pos.1, pos.2, state.color⟩
    (state.picture.width * state.picture.height + 1)
    [⟨pos.1, pos.2, state.color⟩] 0
    (fillInv_init state.picture (state.picture.pixel pos.1 pos.2)
      state.color ⟨pos.1, pos.2, state.color⟩)

theorem fillEdits_cons (pos : Int × Int) (state : EditorState) :
    fillEdits pos state =
      ⟨pos.1, pos.2, state.color⟩ :: (fillEdits pos state).tail := by
  obtain ⟨hne, hhead, _, _⟩ := fillEdits_inv pos state
  cases hl : fillEdits pos state with
  | nil => exact absurd hl hne
  | cons a t =>
    rw [hl] at hhead
    rw [List.head?_cons, Option.some.injEq] at hhead
    rw [hhead]
    rfl

theorem fillEdits_tail_inbounds (pos : Int × Int) (state : EditorState) :
    ∀ e ∈ (fillEdits pos state).tail, InBoundsEdit state.picture e := by
  intro e he
  obtain ⟨hne, hhead, hdist, helts⟩ := fillEdits_inv pos state
  have hmem : e ∈ fillEdits pos state := by
    rw [fillEdits_cons pos state]
    exact List.mem_cons_of_mem _ he
  rcases helts e hmem with h | h
  · exfalso
    have hdist2 := hdist
    rw [DistinctCoords, fillEdits_cons pos state,
      List.pairwise_cons] at hdist2
    exact hdist2.1 e he ⟨by rw [h], by rw [h]⟩
  · exact h.1

theorem rectangleEdits_mem (start pos : Int × Int) (state : EditorState)
    (x y : Int) :
    (⟨x, y, state.color⟩ : Edit) ∈ rectangleEdits start pos state ↔
      (min start.1 pos.1 ≤ x ∧ x ≤ max start.1 pos.1 ∧
       min start.2 pos.2 ≤ y ∧ y ≤ max start.2 pos.2) := by
  simp only [rectangleEdits, List.mem_flatMap, List.mem_map, mem_intRange,
    Edit.mk.injEq]
  constructor
  · rintro ⟨y2, hy2, x2, hx2, rfl, rfl, -⟩
    exact ⟨hx2.1, hx2.2, hy2.1, hy2.2⟩
  · rintro ⟨h1, h2, h3, h4⟩
    exact ⟨y, ⟨h3, h4⟩, x, ⟨h1, h2⟩, rfl, rfl, trivial⟩

/-- C4 (amended): clipping is uneven across the tools.  The circle tool
clips every emitted edit to the grid, and flood fill only ever *expands* to
in-bounds cells (every element after the seed is in-bounds); but the draw
tool always emits exactly the raw pointer cell, clipped or not, the
rectangle tool emits the full inclusive min/max box regardless of grid
bounds, and fill's seed is the raw pointer cell.  The pick tool dispatches
no picture edit, and applying any edit list via `Picture.draw` is total and
preserves the grid dimensions (no error), so out-of-grid pointers produce
unclipped edit sets for draw/rectangle/fill — not errors, but not the empty
edit set the claim requires. -/
theorem tools_clipping_status (state : EditorState) :
    (∀ pos cur : Int × Int, ∀ e ∈ circleEdits pos cur state,
      InBoundsEdit state.picture e) ∧
    (∀ pos : Int × Int, ∀ e ∈ (fillEdits pos state).tail,
      InBoundsEdit state.picture e) ∧
    (∀ pos : Int × Int,
      drawEdits pos state = [⟨pos.1, pos.2, state.color⟩]) ∧
    (∀ start pos : Int × Int, ∀ x y : Int,
      ((⟨x, y, state.color⟩ : Edit) ∈ rectangleEdits start pos state ↔
        min start.1 pos.1 ≤ x ∧ x ≤ max start.1 pos.1 ∧
        min start.2 pos.2 ≤ y ∧ y ≤ max start.2 pos.2)) ∧
    (∀ pos : Int × Int, (pickAction pos state).picture = none) ∧
    (∀ E : List Edit,
      (state.picture.draw E).width = state.picture.width ∧
      (state.picture.draw E).height = state.picture.height) :=
  ⟨fun pos cur => circleEdits_inbounds pos cur state,
   fun pos => fillEdits_tail_inbounds pos state,
   fun _ => rfl,
   fun start pos x y => rectangleEdits_mem start pos state x y,
   fun _ => rfl,
   fun E => ⟨draw_width state.picture E, draw_height state.picture E⟩⟩

theorem tools_clipping_status_witness :
    InBoundsEdit startState.picture ⟨1, 0, "#000000"⟩ ∧
    drawEdits (-1, 0) startState = [⟨-1, 0, "#000000"⟩] :=
  ⟨(tools_clipping_status startState).1 (0, 0) (1, 0) ⟨1, 0, "#000000"⟩
      (by decide),
   (tools_clipping_status startState).2.2.1 (-1, 0)⟩

/-- C4 counterexample: the draw tool at the out-of-grid pointer position
`(-1, 0)` dispatches a non-empty edit set containing an out-of-bounds
coordinate, so "a pointer position outside the grid produces zero edits"
fails. -/
theorem draw_tool_oob_emits_edit :
    drawEdits (-1, 0) startState = [⟨-1, 0, "#000000"⟩] ∧
    ¬ InBoundsEdit startState.picture ⟨-1, 0, "#000000"⟩ :=
  ⟨rfl, by decide⟩

/-- C5: with an in-bounds start cell, flood fill never enqueues the same
cell twice (all coordinates in `drawn` are pairwise distinct), the visited
list reaches length at most `width * height`, the list starts with the
seed and every later element is an in-bounds cell whose original color
equals the start cell's original color, 4-adjacent to another visited
cell — and the worklist loop has converged: giving the loop any extra fuel
leaves the result unchanged, so the source's unfueled loop terminates. -/
theorem fill_no_revisit_terminates (pos : Int × Int) (state : EditorState)
    (hx1 : 0 ≤ pos.1) (hx2 : pos.1 < (state.picture.width : Int))
    (hy1 : 0 ≤ pos.2) (hy2 : pos.2 < (state.picture.height : Int)) :
    DistinctCoords (fillEdits pos state) ∧
    (fillEdits pos state).length ≤
      state.picture.width * state.picture.height ∧
    (fillEdits pos state).head? = some ⟨pos.1, pos.2, state.color⟩ ∧
    (∀ e ∈ fillEdits pos state, e ≠ ⟨pos.1, pos.2, state.color⟩ →
      InBoundsEdit state.picture e ∧
      state.picture.pixel e.x e.y = state.picture.pixel pos.1 pos.2 ∧
      ∃ q ∈ fillEdits pos state,
        (q.x - e.x).natAbs + (q.y - e.y).natAbs = 1) ∧
    (∀ k : Nat,
      fillLoop state.picture (state.picture.pixel pos.1 pos.2) state.color
        (state.picture.width * state.picture.height + 1 + k)
        [⟨pos.1, pos.2, state.color⟩] 0 = fillEdits pos state) := by
  have hseed : InBoundsEdit state.picture ⟨pos.1, pos.2, state.color⟩ :=
    ⟨hx1, hx2, hy1, hy2⟩
  obtain ⟨hne, hhead, hdist, helts⟩ := fillEdits_inv pos state
  refine ⟨hdist, ?_, hhead, ?_, ?_⟩
  · exact distinct_inbounds_length_le state.picture (fillEdits pos state)
      hdist (fillInv_all_inbounds state.picture
        (state.picture.pixel pos.1 pos.2) state.color
        ⟨pos.1, pos.2, state.color⟩ (fillEdits pos state) hseed
        (fillEdits_inv pos state))
  · intro e he hne2
    rcases helts e he with h | h
    · exact absurd h hne2
    · exact ⟨h.1, h.2.1, h.2.2.2⟩
  · intro k
    induction k with
    | zero => rfl
    | succ k ih =>
      have harith : state.picture.width * state.picture.height + 1 +
          (k + 1) =
          (state.picture.width * state.picture.height + 1 + k) + 1 := by
        omega
      rw [harith,
        fillLoop_stable state.picture
          (state.picture.pixel pos.1 pos.2) state.color
          ⟨pos.1, pos.2, state.color⟩ hseed
          (state.picture.width * state.picture.height + 1 + k)
          [⟨pos.1, pos.2, state.color⟩] 0
          (fillInv_init state.picture
            (state.picture.pixel pos.1 pos.2) state.color
            ⟨pos.1, pos.2, state.color⟩)
          (by omega)]
      exact ih

theorem fill_no_revisit_terminates_witness :
    DistinctCoords (fillEdits (0, 0)
      { tool := "fill", color := "#00ff00",
        picture := ⟨2, 1, ["#ff0000", "#ff0000"]⟩,
        done := [], doneAt := 0 }) ∧
    (fillEdits (0, 0)
      { tool := "fill", color := "#00ff00",
        picture := ⟨2, 1, ["#ff0000", "#ff0000"]⟩,
        done := [], doneAt := 0 }).length ≤ 2 * 1 :=
  ⟨(fill_no_revisit_terminates (0, 0)
      { tool := "fill", color := "#00ff00",
        picture := ⟨2, 1, ["#ff0000", "#ff0000"]⟩,
        done := [], doneAt := 0 }
      (by decide) (by decide) (by decide) (by decide)).1,
   (fill_no_revisit_terminates (0, 0)
      { tool := "fill", color := "#00ff00",
        picture := ⟨2, 1, ["#ff0000", "#ff0000"]⟩,
        done := [], doneAt := 0 }
      (by decide) (by decide) (by decide) (by decide)).2.1⟩

theorem set_self_of_getElem? (l : List Color) (n : Nat) (a : Color)
    (h : l[n]? = some a) : l.set n a = l := by
  induction l generalizing n with
  | nil => simp at h
  | cons b t ih =>
    cases n with
    | zero =>
      rw [List.getElem?_cons_zero, Option.some.injEq] at h
      rw [← h]
      rfl
    | succ n =>
      rw [List.getElem?_cons_succ] at h
      show b :: t.set n a = b :: t
      rw [ih n h]

/-- Drawing edits that each write the color their cell already has leaves
the picture unchanged, as a value. -/
theorem draw_fixpoint (p : Picture) (E : List Edit)
    (hE : ∀ e ∈ E, p.pixel e.x e.y = some e.color) :
    p.draw E = p := by
  have hfold : ∀ (E2 : List Edit),
      (∀ e ∈ E2, p.pixel e.x e.y = some e.color) →
      ∀ px : List Color, px = p.pixels →
      E2.foldl (fun copy e =>
        let idx := e.x + e.y * (p.width : Int)
        if 0 ≤ idx then copy.set idx.toNat e.color else copy) px =
      p.pixels := by
    intro E2
    induction E2 with
    | nil => intro _ px hpx; simpa using hpx
    | cons e E2 ih =>
      intro hE2 px hpx
      subst hpx
      rw [List.foldl_cons]
      apply ih (fun e2 h2 => hE2 e2 (List.mem_cons_of_mem e h2))
      show (if 0 ≤ e.x + e.y * (p.width : Int) then
          p.pixels.set (e.x + e.y * (p.width : Int)).toNat e.color
        else p.pixels) = p.pixels
      have he := hE2 e (List.mem_cons_self e E2)
      by_cases hidx : 0 ≤ e.x + e.y * (p.width : Int)
      · rw [if_pos hidx]
        apply set_self_of_getElem?
        have he2 : (if 0 ≤ e.x + e.y * (p.width : Int) then
            p.pixels[(e.x + e.y * (p.width : Int)).toNat]? else none) =
            some e.color := he
        rwa [if_pos hidx] at he2
      · rw [if_neg hidx]
  unfold Picture.draw
  rw [hfold E hE p.pixels rfl]

/-- C6: flood-filling an in-bounds cell whose color already equals the
current drawing color yields a non-empty edit set that is a value-level
no-op: applying it returns a picture equal to the input, cell for cell. -/
theorem fill_same_color_noop (pos : Int × Int) (state : EditorState)
    (hx1 : 0 ≤ pos.1) (hx2 : pos.1 < (state.picture.width : Int))
    (hy1 : 0 ≤ pos.2) (hy2 : pos.2 < (state.picture.height : Int))
    (hsame : state.picture.pixel pos.1 pos.2 = some state.color) :
    fillEdits pos state ≠ [] ∧
    state.picture.draw (fillEdits pos state) = state.picture ∧
    (∀ x y : Int,
      (state.picture.draw (fillEdits pos state)).pixel x y =
        state.picture.pixel x y) := by
  obtain ⟨hne, hhead, hdist, helts⟩ := fillEdits_inv pos state
  have hall : ∀ e ∈ fillEdits pos state,
      state.picture.pixel e.x e.y = some e.color := by
    intro e he
    rcases helts e he with h | ⟨hb, hp, hc, -⟩
    · rw [h]
      exact hsame
    · rw [hp, hsame, hc]
  have hdraw := draw_fixpoint state.picture (fillEdits pos state) hall
  exact ⟨hne, hdraw, fun x y => by rw [hdraw]⟩

theorem fill_same_color_noop_witness :
    fillEdits (0, 0)
      { tool := "fill", color := "#00ff00",
        picture := ⟨2, 1, ["#00ff00", "#ff0000"]⟩,
        done := [], doneAt := 0 } ≠ [] ∧
    (Picture.mk 2 1 ["#00ff00", "#ff0000"]).draw
      (fillEdits (0, 0)
        { tool := "fill", color := "#00ff00",
          picture := ⟨2, 1, ["#00ff00", "#ff0000"]⟩,
          done := [], doneAt := 0 }) =
      Picture.mk 2 1 ["#00ff00", "#ff0000"] :=
  ⟨(fill_same_color_noop (0, 0)
      { tool := "fill", color := "#00ff00",
        picture := ⟨2, 1, ["#00ff00", "#ff0000"]⟩,
        done := [], doneAt := 0 }
      (by decide) (by decide) (by decide) (by decide) (by decide)).1,
   (fill_same_color_noop (0, 0)
      { tool := "fill", color := "#00ff00",
        picture := ⟨2, 1, ["#00ff00", "#ff0000"]⟩,
        done := [], doneAt := 0 }
      (by decide) (by decide) (by decide) (by decide) (by decide)).2.1⟩

end PixelArt
